import Mathlib

/-!
Verification of the DGHV-style one-bit encryption stub in `src/main.py`.

The source defines:
  * `DGHVParams(q_size, r_size)` storing `largest_q = 2 ** q_size` and
    `largest_r = 2 ** r_size`, with no validation;
  * `encrypt(plaintext, public_key, params)` drawing
    `r = secrets.randbelow(params.largest_r)` and
    `q = secrets.randbelow(params.largest_q)` and returning
    `public_key * q + 2 * r + plaintext`;
  * `decrypt(ciphertext, private_key, params)` returning
    `(ciphertext % private_key) % 2`.

Python integers are arbitrary precision, so they embed as `Int` (random
draws from `randbelow` are naturals, so they embed as `Nat`).  Python's
`%` is floor-mod (`Int.fmod`) and raises `ZeroDivisionError` when the
divisor is `0`; `decrypt` therefore embeds as an `Option`-valued function
that is `none` exactly at `private_key = 0`.  The randomness consumed by
`encrypt` is made an explicit pair of arguments `(q, r)`.
-/

/-- Embedding of the Python class `DGHVParams`: the constructor stores the
two sizes and the derived powers of two. -/
structure DGHVParams where
  q_size : Nat
  r_size : Nat
  largest_q : Nat
  largest_r : Nat
deriving DecidableEq, Repr

/-- Embedding of `DGHVParams.__init__(q_size, r_size)` from `src/main.py`
lines 4-9: it performs no validation and always succeeds, setting
`largest_q = 2 ** q_size` and `largest_r = 2 ** r_size`. -/
def mkDGHVParams (q_size r_size : Nat) : DGHVParams :=
  { q_size := q_size
    r_size := r_size
    largest_q := 2 ^ q_size
    largest_r := 2 ^ r_size }

/-- Embedding of `encrypt(plaintext, public_key, params)` from
`src/main.py` lines 20-23, with the two random draws `q` and `r` (each a
natural number produced by `secrets.randbelow`) made explicit inputs. -/
def encrypt (plaintext public_key : Int) (params : DGHVParams)
    (q r : Nat) : Int :=
  public_key * (q : Int) + 2 * (r : Int) + plaintext

/-- Embedding of `decrypt(ciphertext, private_key, params)` from
`src/main.py` lines 26-27: `(ciphertext % private_key) % 2` with Python's
floor-mod semantics (`Int.fmod`); `none` models the `ZeroDivisionError`
raised when `private_key = 0`. -/
def decrypt (ciphertext private_key : Int) (params : DGHVParams) :
    Option Int :=
  if private_key = 0 then none
  else some (Int.fmod (Int.fmod ciphertext private_key) 2)

/-- Modelled from the spec: the body of `DGHVPublicKey.__init__` at
`src/main.py` lines 16-17 is absent from the source (the class has an
empty constructor body).  The spec defines public key generation as
`pk = private_key * q0 + 2 * r0` with `q0` drawn from
`[0, max_multiplier)` and `r0` from `[0, max_noise)`; the two draws are
made explicit inputs here. -/
def generate_public_key (private_key : Int) (params : DGHVParams)
    (q0 r0 : Nat) : Int :=
  private_key * (q0 : Int) + 2 * (r0 : Int)

/-- Number of randomness pairs `(q, r)` in the ranges used by `encrypt`
for which the produced ciphertext has low bit `v`: the distribution of
`c % 2` over the uniform draws of `encrypt` for plaintext `m` is given by
these counts. -/
def parityCount (public_key : Int) (params : DGHVParams)
    (m v : Int) : Nat :=
  ((Finset.range params.largest_q ×ˢ Finset.range params.largest_r).filter
    (fun qr => (encrypt m public_key params qr.1 qr.2) % 2 = v)).card

/-- C2: for a positive private key, `decrypt` computes the
mathematically-correct residue of the ciphertext modulo the key,
normalized into `[0, private_key)`, and returns that residue taken
mod 2. -/
theorem decrypt_is_normalized_double_mod (c p : Int) (params : DGHVParams)
    (hp : 0 < p) :
    0 ≤ c % p ∧ c % p < p ∧ p ∣ (c - c % p) ∧
      decrypt c p params = some ((c % p) % 2) := by
  refine ⟨Int.emod_nonneg c (by omega), Int.emod_lt_of_pos c hp, ?_, ?_⟩
  · exact ⟨c / p, by have := Int.ediv_add_emod c p; omega⟩
  · unfold decrypt
    rw [if_neg (by omega)]
    rw [Int.fmod_eq_emod c (le_of_lt hp), Int.fmod_eq_emod _ (by omega)]

/-- C2 witness: the characterization evaluated at ciphertext 7 and
private key 3. -/
theorem decrypt_is_normalized_double_mod_witness :
    0 ≤ (7 : Int) % 3 ∧ (7 : Int) % 3 < 3 ∧ (3 : Int) ∣ (7 - 7 % 3) ∧
      decrypt 7 3 (mkDGHVParams 2 1) = some ((7 % 3) % 2) :=
  decrypt_is_normalized_double_mod 7 3 (mkDGHVParams 2 1) (by decide)

/-- C3: for every pair of random draws in the ranges used by the code,
`encrypt` returns exactly `public_key * q + 2 * r + plaintext`. -/
theorem encrypt_formula (m pk : Int) (s t : Nat) (q r : Nat)
    (hq : q < (mkDGHVParams s t).largest_q)
    (hr : r < (mkDGHVParams s t).largest_r) :
    encrypt m pk (mkDGHVParams s t) q r = pk * (q : Int) + 2 * (r : Int) + m :=
  rfl

/-- C3 witness: the formula evaluated at concrete draws within range. -/
theorem encrypt_formula_witness :
    (1 : Nat) < (mkDGHVParams 2 1).largest_q ∧
    (1 : Nat) < (mkDGHVParams 2 1).largest_r ∧
    encrypt 1 5 (mkDGHVParams 2 1) 1 1 = 5 * (1 : Int) + 2 * 1 + 1 :=
  ⟨by decide, by decide, encrypt_formula 1 5 2 1 1 1 (by decide) (by decide)⟩

/-- C4: the parameter constructor in the source performs no validation:
`DGHVParams(8, 0)` (that is, `noise_bits = 0`, `key_bits = 8`) constructs
successfully instead of failing with `InvalidParameters`. -/
theorem mkDGHVParams_no_validation :
    mkDGHVParams 8 0 =
      { q_size := 8, r_size := 0, largest_q := 256, largest_r := 1 } :=
  rfl

/-- C5: `encrypt` in the source performs no plaintext validation: at
plaintext 2 it returns the ciphertext `pk * q + 2 * r + 2` instead of
failing with `InvalidPlaintext`. -/
theorem encrypt_no_plaintext_validation :
    encrypt 2 5 (mkDGHVParams 2 1) 1 1 = 9 := by
  decide

/-- C6: `decrypt` in the source performs no key validation: with the even
key 4 it returns a value instead of failing with `InvalidKey`. -/
theorem decrypt_no_key_validation :
    decrypt 7 4 (mkDGHVParams 2 1) = some 1 := by
  decide

/-- C7: public key generation (modelled from the spec, since the source
constructor body is absent) returns exactly
`private_key * q0 + 2 * r0` for every pair of draws in range. -/
theorem generate_public_key_formula (p : Int) (s t : Nat) (q0 r0 : Nat)
    (hq0 : q0 < (mkDGHVParams s t).largest_q)
    (hr0 : r0 < (mkDGHVParams s t).largest_r) :
    generate_public_key p (mkDGHVParams s t) q0 r0 =
      p * (q0 : Int) + 2 * (r0 : Int) :=
  rfl

/-- C7 witness: the formula evaluated at concrete draws within range. -/
theorem generate_public_key_formula_witness :
    (3 : Nat) < (mkDGHVParams 2 1).largest_q ∧
    (1 : Nat) < (mkDGHVParams 2 1).largest_r ∧
    generate_public_key 5 (mkDGHVParams 2 1) 3 1 = 5 * (3 : Int) + 2 * 1 :=
  ⟨by decide, by decide,
    generate_public_key_formula 5 2 1 3 1 (by decide) (by decide)⟩

/-- C9: `decrypt` is a pure function whose result does not depend on the
`params` argument: for any nonzero key, two runs with different parameter
objects return the same value. -/
theorem decrypt_params_independent (c p : Int) (h : p ≠ 0)
    (params1 params2 : DGHVParams) :
    decrypt c p params1 = decrypt c p params2 :=
  rfl

/-- C9 witness: parameter independence at a concrete input with two
different parameter objects. -/
theorem decrypt_params_independent_witness :
    decrypt 5 3 (mkDGHVParams 2 1) = decrypt 5 3 (mkDGHVParams 9 9) :=
  decrypt_params_independent 5 3 (by decide) (mkDGHVParams 2 1)
    (mkDGHVParams 9 9)

/-- C10: `decrypt` fails exactly at `private_key = 0` (Python's modulo by
zero), and every value it returns is 0 or 1. -/
theorem decrypt_total_and_bit_valued (c p : Int) (params : DGHVParams) :
    (decrypt c p params = none ↔ p = 0) ∧
      ∀ v, decrypt c p params = some v → v = 0 ∨ v = 1 := by
  constructor
  · unfold decrypt
    constructor
    · intro h
      by_contra hp
      rw [if_neg hp] at h
      exact Option.some_ne_none _ h
    · intro h
      rw [if_pos h]
  · intro v hv
    unfold decrypt at hv
    by_cases hp : p = 0
    · rw [if_pos hp] at hv
      exact absurd hv (Option.noConfusion)
    · rw [if_neg hp] at hv
      have hv2 : Int.fmod (Int.fmod c p) 2 = v := Option.some_injective _ hv
      rw [Int.fmod_eq_emod _ (by omega : (0:Int) ≤ 2)] at hv2
      omega

/-- C10 witness: `decrypt` returns `none` at key 0, and the value it
returns at a concrete nonzero key is a bit. -/
theorem decrypt_total_and_bit_valued_witness :
    decrypt 7 0 (mkDGHVParams 2 1) = none ∧ ((1 : Int) = 0 ∨ (1 : Int) = 1) :=
  ⟨(decrypt_total_and_bit_valued 7 0 (mkDGHVParams 2 1)).1.mpr rfl,
    (decrypt_total_and_bit_valued 7 4 (mkDGHVParams 2 1)).2 1 (by decide)⟩

/-- C1 counterexample: at the odd positive private key `p = 1` (with valid
parameters `noise_bits = 1 < key_bits = 2`, draws `q0 = r0 = q = r = 0`,
public key `1 * 0 + 2 * 0`, and bit `m = 1`), the accumulated noise term
`2 * r0 * q + 2 * r = 0` is strictly below `p / 2` (that is,
`2 * noise < p`), yet decryption returns 0, not the original bit. -/
theorem roundtrip_fails_at_key_one :
    1 ≤ 1 ∧ 1 < 2 ∧
    (1 : Int) % 2 = 1 ∧ (0 : Int) < 1 ∧
    (0 : Nat) < (mkDGHVParams 2 1).largest_q ∧
    (0 : Nat) < (mkDGHVParams 2 1).largest_r ∧
    2 * (2 * ((0 : Nat) : Int) * ((0 : Nat) : Int) + 2 * ((0 : Nat) : Int)) < 1 ∧
    decrypt (encrypt 1 (generate_public_key 1 (mkDGHVParams 2 1) 0 0)
      (mkDGHVParams 2 1) 0 0) 1 (mkDGHVParams 2 1) ≠ some 1 := by
  decide

/-- C1 (amended): round-trip correctness under the noise bound for every
odd private key `p ≥ 3`: with valid parameters, public key
`p * q0 + 2 * r0`, bit `m`, and encryption draws `q`, `r`, if the
accumulated noise `2 * r0 * q + 2 * r` is strictly below `p / 2` (stated
over the integers as `2 * (2 * r0 * q + 2 * r) < p`), then decrypting the
encryption of `m` returns `m`. -/
theorem roundtrip_correct (n k : Nat) (hn : 1 ≤ n) (hnk : n < k)
    (p : Int) (hodd : p % 2 = 1) (hp : 3 ≤ p)
    (q0 r0 q r : Nat)
    (hq0 : q0 < (mkDGHVParams k n).largest_q)
    (hr0 : r0 < (mkDGHVParams k n).largest_r)
    (hq : q < (mkDGHVParams k n).largest_q)
    (hr : r < (mkDGHVParams k n).largest_r)
    (m : Int) (hm : m = 0 ∨ m = 1)
    (hnoise : 2 * (2 * (r0 : Int) * (q : Int) + 2 * (r : Int)) < p) :
    decrypt (encrypt m (generate_public_key p (mkDGHVParams k n) q0 r0)
      (mkDGHVParams k n) q r) p (mkDGHVParams k n) = some m := by
  have hA : 0 ≤ (r0 : Int) * (q : Int) :=
    mul_nonneg (Int.natCast_nonneg r0) (Int.natCast_nonneg q)
  have hnoise2 : 2 * (2 * ((r0 : Int) * (q : Int)) + 2 * (r : Int)) < p := by
    rw [show (2 : Int) * (2 * ((r0 : Int) * (q : Int)) + 2 * (r : Int)) =
      2 * (2 * (r0 : Int) * (q : Int) + 2 * (r : Int)) from by ring]
    exact hnoise
  have hr' : (0 : Int) ≤ (r : Int) := Int.natCast_nonneg r
  have hc : encrypt m (generate_public_key p (mkDGHVParams k n) q0 r0)
      (mkDGHVParams k n) q r =
      (2 * ((r0 : Int) * (q : Int)) + 2 * (r : Int) + m) +
        p * ((q0 : Int) * (q : Int)) := by
    unfold encrypt generate_public_key
    ring
  have h0 : 0 ≤ 2 * ((r0 : Int) * (q : Int)) + 2 * (r : Int) + m := by omega
  have hlt : 2 * ((r0 : Int) * (q : Int)) + 2 * (r : Int) + m < p := by omega
  unfold decrypt
  rw [if_neg (by omega : ¬ p = 0), hc,
    Int.fmod_eq_emod _ (by omega : (0 : Int) ≤ p),
    Int.add_mul_emod_self_left, Int.emod_eq_of_lt h0 hlt,
    Int.fmod_eq_emod _ (by omega : (0 : Int) ≤ 2)]
  have : (2 * ((r0 : Int) * (q : Int)) + 2 * (r : Int) + m) % 2 = m := by
    omega
  rw [this]

/-- C1 witness: the amended round trip at `p = 5`, `q0 = r0 = q = 1`,
`r = 0`, bit 1: the noise term is 2 and `2 * 2 < 5`, and decryption
recovers the bit. -/
theorem roundtrip_correct_witness :
    decrypt (encrypt 1 (generate_public_key 5 (mkDGHVParams 2 1) 1 1)
      (mkDGHVParams 2 1) 1 0) 5 (mkDGHVParams 2 1) = some 1 :=
  roundtrip_correct 1 2 (by decide) (by decide) 5 (by decide) (by decide)
    1 1 1 0 (by decide) (by decide) (by decide) (by decide) 1 (Or.inr rfl)
    (by decide)

/-- In `Finset.range (2 * c)`, exactly `c` numbers have residue `t`
mod 2, for each `t < 2`. -/
theorem card_filter_range_two_mul_mod (c t : Nat) (ht : t < 2) :
    ((Finset.range (2 * c)).filter (fun q => q % 2 = t)).card = c := by
  interval_cases t
  · induction c with
    | zero => simp
    | succ c ih =>
        rw [show 2 * (c + 1) = (2 * c + 1) + 1 from by ring,
          Finset.range_succ, Finset.filter_insert, Finset.range_succ,
          Finset.filter_insert,
          if_neg (show ¬((2 * c + 1) % 2 = 0) from by omega),
          if_pos (show (2 * c) % 2 = 0 from by omega),
          Finset.card_insert_of_not_mem (by simp), ih]
  · induction c with
    | zero => simp
    | succ c ih =>
        rw [show 2 * (c + 1) = (2 * c + 1) + 1 from by ring,
          Finset.range_succ, Finset.filter_insert, Finset.range_succ,
          Finset.filter_insert,
          if_pos (show (2 * c + 1) % 2 = 1 from by omega),
          if_neg (show ¬((2 * c) % 2 = 1) from by omega),
          Finset.card_insert_of_not_mem (by simp), ih]

/-- Under an odd public key, the low bit of a ciphertext produced by
`encrypt` is the low bit of `q + m`. -/
theorem encrypt_emod_two (pk : Int) (hodd : pk % 2 = 1) (m : Int)
    (params : DGHVParams) (q r : Nat) :
    (encrypt m pk params q r) % 2 = ((q : Int) + m) % 2 := by
  unfold encrypt
  have h1 : (pk * (q : Int)) % 2 = (q : Int) % 2 := by
    rw [Int.mul_emod, hodd, one_mul, Int.emod_emod_of_dvd _ (dvd_refl 2)]
  omega

/-- The number of draws `q < 2 ^ k` for which `(q + b) % 2 = v`, for a
bit `b`: it is `2 ^ (k - 1)` when `v` is 0 or 1 and 0 otherwise — in
particular it does not depend on `b`. -/
theorem card_filter_bit_parity (k : Nat) (hk : 1 ≤ k) (b : Int)
    (hb : b = 0 ∨ b = 1) (v : Int) :
    ((Finset.range (2 ^ k)).filter
      (fun q : Nat => ((q : Int) + b) % 2 = v)).card =
      if v = 0 ∨ v = 1 then 2 ^ (k - 1) else 0 := by
  have h2 : (2 : Nat) ^ k = 2 * 2 ^ (k - 1) := by
    obtain ⟨k0, rfl⟩ : ∃ k0, k = k0 + 1 := ⟨k - 1, by omega⟩
    rw [Nat.add_sub_cancel, pow_succ]
    ring
  by_cases hv : v = 0 ∨ v = 1
  · rw [if_pos hv]
    obtain ⟨t, ht, hiff⟩ : ∃ t : Nat, t < 2 ∧
        ∀ q : Nat, (((q : Int) + b) % 2 = v ↔ q % 2 = t) := by
      rcases hb with rfl | rfl <;> rcases hv with rfl | rfl
      · exact ⟨0, by omega, fun q => by omega⟩
      · exact ⟨1, by omega, fun q => by omega⟩
      · exact ⟨1, by omega, fun q => by omega⟩
      · exact ⟨0, by omega, fun q => by omega⟩
    rw [Finset.filter_congr (fun q _ => hiff q), h2,
      card_filter_range_two_mul_mod (2 ^ (k - 1)) t ht]
  · rw [if_neg hv, Finset.filter_eq_empty_iff.mpr
      (fun q _ => by rcases hb with rfl | rfl <;> omega),
      Finset.card_empty]

/-- C8 counterexample: with valid parameters (`noise_bits = 1`,
`key_bits = 2`) and the even public key 2, the distribution of the
ciphertext's low bit over the random draws of `encrypt` differs between
plaintext 0 and plaintext 1: the counts of draws giving `c % 2 = 0`
disagree (the low bit reveals the plaintext for an even public key). -/
theorem parity_leaks_for_even_public_key :
    1 ≤ 1 ∧ 1 < 2 ∧
    parityCount 2 (mkDGHVParams 2 1) 0 0 ≠ parityCount 2 (mkDGHVParams 2 1) 1 0 := by
  decide

/-- C8 (amended): for an odd public key and valid parameters, the
distribution of the ciphertext's low bit over the uniform random draws of
`encrypt` is identical for plaintext 0 and plaintext 1: every value `v`
is hit by the same number of draws. -/
theorem parityCount_independent_of_bit (n k : Nat) (hn : 1 ≤ n)
    (hnk : n < k) (pk : Int) (hodd : pk % 2 = 1) (v : Int) :
    parityCount pk (mkDGHVParams k n) 0 v =
      parityCount pk (mkDGHVParams k n) 1 v := by
  have hk : 1 ≤ k := by omega
  have e0 : ((Finset.range (mkDGHVParams k n).largest_q ×ˢ
      Finset.range (mkDGHVParams k n).largest_r).filter
      (fun qr => (encrypt 0 pk (mkDGHVParams k n) qr.1 qr.2) % 2 = v)) =
      ((Finset.range (mkDGHVParams k n).largest_q ×ˢ
      Finset.range (mkDGHVParams k n).largest_r).filter
      (fun qr : Nat × Nat => ((qr.1 : Int) + 0) % 2 = v)) :=
    Finset.filter_congr (fun x _ => by
      rw [encrypt_emod_two pk hodd 0 (mkDGHVParams k n) x.1 x.2])
  have e1 : ((Finset.range (mkDGHVParams k n).largest_q ×ˢ
      Finset.range (mkDGHVParams k n).largest_r).filter
      (fun qr => (encrypt 1 pk (mkDGHVParams k n) qr.1 qr.2) % 2 = v)) =
      ((Finset.range (mkDGHVParams k n).largest_q ×ˢ
      Finset.range (mkDGHVParams k n).largest_r).filter
      (fun qr : Nat × Nat => ((qr.1 : Int) + 1) % 2 = v)) :=
    Finset.filter_congr (fun x _ => by
      rw [encrypt_emod_two pk hodd 1 (mkDGHVParams k n) x.1 x.2])
  unfold parityCount
  rw [e0, e1,
    Finset.filter_product_left (fun a : Nat => ((a : Int) + 0) % 2 = v),
    Finset.filter_product_left (fun a : Nat => ((a : Int) + 1) % 2 = v),
    Finset.card_product, Finset.card_product]
  simp only [mkDGHVParams]
  rw [card_filter_bit_parity k hk 0 (Or.inl rfl) v,
    card_filter_bit_parity k hk 1 (Or.inr rfl) v]

/-- C8 witness: the amended parity-indistinguishability at the odd public
key 3 with valid parameters. -/
theorem parityCount_independent_of_bit_witness :
    parityCount 3 (mkDGHVParams 2 1) 0 0 =
      parityCount 3 (mkDGHVParams 2 1) 1 0 :=
  parityCount_independent_of_bit 1 2 (by decide) (by decide) 3 (by decide) 0
